import Mathlib

/-!
Shallow embedding of the go-calibre chapter-extraction pipeline.

Strings are modelled as `List Char`; Go's `len` on strings (a byte count) is
modelled by `goLen`, which sums UTF-8 sizes.  Go loops that rescan a shrinking
string are modelled with an explicit fuel argument that is always initialised
to a provably sufficient bound, so that every definition is kernel-computable.
-/

/-- `unicode.IsSpace` (the predicate used by `strings.TrimSpace` and
`strings.Fields`). -/
def goIsSpace (c : Char) : Bool :=
  c = ' ' || c = '\t' || c = '\n' || c = '\x0b' || c = '\x0c' || c = '\r' ||
  c.toNat = 0x85 || c.toNat = 0xa0 || c.toNat = 0x1680 ||
  (0x2000 ≤ c.toNat && c.toNat ≤ 0x200a) ||
  c.toNat = 0x2028 || c.toNat = 0x2029 || c.toNat = 0x202f ||
  c.toNat = 0x205f || c.toNat = 0x3000

/-- The character class `\s` of Go's regexp package: `[\t\n\f\r ]`. -/
def reIsSpace (c : Char) : Bool :=
  c = '\t' || c = '\n' || c = '\x0c' || c = '\r' || c = ' '

/-- Go `len` of a string: its UTF-8 byte length. -/
def goLen (s : List Char) : Nat :=
  (s.map Char.utf8Size).sum

/-- `strings.TrimSpace`. -/
def trimSpace (s : List Char) : List Char :=
  ((s.dropWhile goIsSpace).reverse.dropWhile goIsSpace).reverse

/-- `strings.Split` with a one-character separator. -/
def goSplit (sep : Char) : List Char → List (List Char)
  | [] => [[]]
  | c :: cs =>
    if c = sep then [] :: goSplit sep cs
    else
      match goSplit sep cs with
      | [] => [[c]]
      | p :: ps => (c :: p) :: ps

/-- Helper for `goFields`: `acc` is the current word, reversed. -/
def goFieldsAux : List Char → List Char → List (List Char)
  | [], acc => if acc = [] then [] else [acc.reverse]
  | c :: cs, acc =>
    if goIsSpace c then
      if acc = [] then goFieldsAux cs [] else acc.reverse :: goFieldsAux cs []
    else goFieldsAux cs (c :: acc)

/-- `strings.Fields`: split around runs of white space. -/
def goFields (s : List Char) : List (List Char) :=
  goFieldsAux s []

/-- `strings.Index`: position of the first occurrence of `pat` in `hay`
(`none` for Go's `-1`). -/
def goIndex : List Char → List Char → Option Nat
  | hay, pat =>
    if pat.isPrefixOf hay then some 0
    else
      match hay with
      | [] => none
      | _ :: t => (goIndex t pat).map (· + 1)

/-- `strings.ReplaceAll`, fuel-driven so that it is structural; the fuel is
always instantiated with the length of the string, which suffices because
every step consumes at least one character.  (All patterns used by the source
are non-empty; an empty pattern makes every step copy one character.) -/
def goReplaceAllAux (pat rep : List Char) : Nat → List Char → List Char
  | 0, s => s
  | fuel + 1, s =>
    match s with
    | [] => []
    | c :: cs =>
      if pat ≠ [] ∧ pat.isPrefixOf (c :: cs) then
        rep ++ goReplaceAllAux pat rep fuel ((c :: cs).drop pat.length)
      else c :: goReplaceAllAux pat rep fuel cs

/-- `strings.ReplaceAll`. -/
def goReplaceAll (s pat rep : List Char) : List Char :=
  goReplaceAllAux pat rep s.length s

/-- `strings.Join`. -/
def goJoin (sep : List Char) : List (List Char) → List Char
  | [] => []
  | [a] => a
  | a :: rest => a ++ sep ++ goJoin sep rest

/-- `strings.TrimSuffix`. -/
def goTrimSuffix (s suf : List Char) : List Char :=
  if suf.isSuffixOf s then s.take (s.length - suf.length) else s

/-- `strings.ToUpper` (ASCII portion, character-wise). -/
def goToUpper (s : List Char) : List Char :=
  s.map Char.toUpper

/-- `strings.ToLower` (ASCII portion, character-wise). -/
def goToLower (s : List Char) : List Char :=
  s.map Char.toLower

/-! ## models/chapter.go -/

/-- `models.Chapter`. -/
structure Chapter where
  index : Nat
  title : List Char
  content : List Char
  htmlContent : List Char
  wordCount : Nat
  charCount : Nat
deriving DecidableEq

/-- The space test hard-coded inside `models.countWords`
(space, tab, newline, carriage return only). -/
def wcIsSpace (r : Char) : Bool :=
  r = ' ' || r = '\t' || r = '\n' || r = '\r'

/-- The scanning loop of `models.countWords`. -/
def countWordsAux : List Char → Bool → Nat
  | [], _ => 0
  | r :: rest, inWord =>
    if wcIsSpace r then countWordsAux rest false
    else if inWord then countWordsAux rest true
    else countWordsAux rest true + 1

/-- `models.countWords`. -/
def countWords (text : List Char) : Nat :=
  if text = [] then 0 else countWordsAux text false

/-- `models.NewChapter`. -/
def NewChapter (index : Nat) (title content : List Char) : Chapter :=
  { index := index
    title := title
    content := content
    htmlContent := []
    wordCount := countWords content
    charCount := goLen content }

/-! ## Package ncx (part_000) -/

/-- `ncx.NavPoint`: a navigation point with nested children.  `label` is
`NavLabel.Text`, `src` is `Content.Src`. -/
inductive NavPoint where
  | mk (id : List Char) (playOrder : Int) (cls : List Char)
       (label : List Char) (src : List Char) (children : List NavPoint)

/-- The children of a `NavPoint`. -/
def NavPoint.children : NavPoint → List NavPoint
  | .mk _ _ _ _ _ cs => cs

/-- `ncx.TOCEntry` (the `Children` field is never populated by `GetTOC`,
which returns a flat list, so it is omitted). -/
structure TOCEntry where
  title : List Char
  level : Nat
  href : List Char
  order : Int
deriving DecidableEq

/-- `ncx.NCX` restricted to the fields `GetTOC` reads: the `navMap`'s
root list of nav points. -/
structure NCXDoc where
  docTitle : List Char
  navPoints : List NavPoint

mutual
/-- `ncx.flattenNavPoint`: emit this point's entry, then append the
flattening of each child at `level + 1` (the Go `for`/`append` loop is the
accumulator recursion `flattenChildren`). -/
def flattenNavPoint (np : NavPoint) (level : Nat) : List TOCEntry :=
  match np with
  | .mk _ po _ label src children =>
    flattenChildren children (level + 1)
      [{ title := trimSpace label, level := level, href := src, order := po }]

/-- The `for _, child := range np.Children` append loop of
`flattenNavPoint`. -/
def flattenChildren : List NavPoint → Nat → List TOCEntry → List TOCEntry
  | [], _, acc => acc
  | c :: rest, level, acc => flattenChildren rest level (acc ++ flattenNavPoint c level)
end

/-- The `for _, np := range ncx.NavMap.NavPoints` append loop of
`(*NCX).GetTOC`. -/
def getTOCAux : List NavPoint → List TOCEntry → List TOCEntry
  | [], acc => acc
  | np :: rest, acc => getTOCAux rest (acc ++ flattenNavPoint np 1)

/-- `(*NCX).GetTOC`. -/
def getTOC (ncx : NCXDoc) : List TOCEntry :=
  getTOCAux ncx.navPoints []

/-- `strings.SplitN(href, "#", 2)`: the part before the first `#`, and the
part after it (`none` when there is no `#`, i.e. Go's 1-element result). -/
def splitHash : List Char → List Char × Option (List Char)
  | [] => ([], none)
  | c :: cs =>
    if c = '#' then ([], some cs)
    else
      let r := splitHash cs
      (c :: r.1, r.2)

/-- The end-fragment determination of `GetChapterContentRange`
(part_000 lines 156-164): `next` contributes an end fragment only when it has
a `#` part and `nextParts[0] == filePath || nextParts[0] == "" ||
strings.HasSuffix(filePath, nextParts[0])`.  Note this runs on the raw
`filePath`, before `filepath.Clean`. -/
def endFragmentOf (filePath nextHref : List Char) : List Char :=
  if nextHref = [] then []
  else
    match splitHash nextHref with
    | (np, some frag) =>
      if np = filePath ∨ np = [] ∨ np.isSuffixOf filePath then frag else []
    | (_, none) => []

/-- A single quote character (written by code point to keep the source free
of quote-escape noise). -/
def sqc : Char := Char.ofNat 39

/-- The four attribute patterns `id="f"`, `id='f'`, `name="f"`, `name='f'`
built by `extractFragmentContent` for a fragment `f`. -/
def attrPatterns (frag : List Char) : List (List Char) :=
  [ ("id=\"".data) ++ frag ++ [('"' : Char)],
    ("id=".data) ++ [sqc] ++ frag ++ [sqc],
    ("name=\"".data) ++ frag ++ [('"' : Char)],
    ("name=".data) ++ [sqc] ++ frag ++ [sqc] ]

/-- The pattern loop of `extractFragmentContent`: the patterns are tried in
order and the first one that occurs anywhere wins (its `strings.Index`
offset is returned); this is pattern-list order, not the smallest offset. -/
def firstPatternIdx (hay : List Char) : List (List Char) → Option Nat
  | [] => none
  | p :: ps =>
    match goIndex hay p with
    | some i => some i
    | none => firstPatternIdx hay ps

/-- The start-offset search of `extractFragmentContent`. -/
def findStartIdx (html startFragment : List Char) : Option Nat :=
  firstPatternIdx html (attrPatterns startFragment)

/-- The end-offset search of `extractFragmentContent`: only performed for a
non-empty end fragment, over `html[startIdx+1:]`, offsets shifted back. -/
def findEndIdx (html : List Char) (startIdx : Nat) (endFragment : List Char) :
    Option Nat :=
  if endFragment = [] then none
  else (firstPatternIdx (html.drop (startIdx + 1)) (attrPatterns endFragment)).map
    (fun idx => startIdx + 1 + idx)

/-- `ncx.extractFragmentContent`: returns `html[startIdx:endIdx]`, the whole
input when the start fragment is not found, with `endIdx` defaulting to
`len(html)` when no end fragment is found. -/
def extractFragmentContent (html startFragment endFragment : List Char) :
    List Char :=
  match findStartIdx html startFragment with
  | none => html
  | some s =>
    let e := (findEndIdx html s endFragment).getD html.length
    (html.drop s).take (e - s)

/-- The closing tag `</tag>`. -/
def closeTagOf (tag : List Char) : List Char :=
  ('<' : Char) :: ('/' : Char) :: (tag ++ [('>' : Char)])

/-- One iteration of the `ncx.removeTag` loop: find `<tag` in the lower-cased
string, find `</tag>` from there, and cut the region out; `none` when either
search fails (both `break`s of the Go loop). -/
def removeTagStep (html tag : List Char) : Option (List Char) :=
  match goIndex (html.map Char.toLower) (('<' : Char) :: tag) with
  | none => none
  | some start =>
    match goIndex (html.drop start) (closeTagOf tag) with
    | none => none
    | some e =>
      some (html.take start ++ html.drop (start + e + (closeTagOf tag).length))

/-- The `for {}` loop of `ncx.removeTag`, fuel-driven; each successful step
removes at least the closing tag, so `length + 1` fuel always reaches the
loop's exit. -/
def removeTagAux (tag : List Char) : Nat → List Char → List Char
  | 0, html => html
  | fuel + 1, html =>
    match removeTagStep html tag with
    | none => html
    | some html' => removeTagAux tag fuel html'

/-- `ncx.removeTag`. -/
def removeTag (html tag : List Char) : List Char :=
  removeTagAux tag (html.length + 1) html

/-- The block-level tag list of `ncx.htmlToText`. -/
def blockTags : List (List Char) :=
  [ ("p".data), ("div".data), ("br".data), ("h1".data), ("h2".data),
    ("h3".data), ("h4".data), ("h5".data), ("h6".data), ("li".data),
    ("tr".data) ]

/-- The tag-stripping scan of `ncx.htmlToText`: drop everything between `<`
and `>`; a stray `>` is also dropped (it only resets the flag). -/
def stripTags : List Char → Bool → List Char
  | [], _ => []
  | c :: cs, inTag =>
    if c = '<' then stripTags cs true
    else if c = '>' then stripTags cs false
    else if inTag then stripTags cs inTag
    else c :: stripTags cs false

/-- The final whitespace cleanup of `ncx.htmlToText`: split on newlines, trim
every line, drop empty lines, re-join with blank lines. -/
def cleanupLines (text : List Char) : List Char :=
  goJoin ("\n\n".data)
    (((goSplit '\n' text).map trimSpace).filter (fun l => l ≠ []))

/-- `ncx.htmlToText`. -/
def htmlToText (html : List Char) : List Char :=
  let h1 := removeTag html ("script".data)
  let h2 := removeTag h1 ("style".data)
  let h3 := blockTags.foldl
    (fun h tag =>
      goReplaceAll (goReplaceAll h (('<' : Char) :: tag) (('\n' : Char) :: ('<' : Char) :: tag))
        (closeTagOf tag) [('\n' : Char)])
    h2
  cleanupLines (stripTags h3 false)

/-- `ncx.GetChapterContentRange` after the content file has been located
(part_000 lines 148-191): parse `href` into path and fragment, compute the
end fragment from `nextHref` against the raw path, slice the file's markup
when a start fragment is present, and project to plain text.  Archive
opening, the `filepath.Clean`-based file lookup, and their error returns are
the omitted I/O surface. -/
def chapterTextFromFile (html href nextHref : List Char) : List Char :=
  let parsed := splitHash href
  let filePath := parsed.1
  let startFragment := (parsed.2).getD []
  let endFragment := endFragmentOf filePath nextHref
  let sliced :=
    if startFragment ≠ [] then extractFragmentContent html startFragment endFragment
    else html
  htmlToText sliced

/-! ## Package calibre, chapters.go (part_001) -/

/-- Membership in the regexp class `[IVXLC]`. -/
def isRomanChar (c : Char) : Bool :=
  c ∈ ("IVXLC".data)

/-- The regexp `^[IVXLC]+$` as a whole-string test. -/
def isRomanB (s : List Char) : Bool :=
  decide (s ≠ []) && s.all isRomanChar

/-- The regexp `^\d+$` as a whole-string test. -/
def isDigitsB (s : List Char) : Bool :=
  decide (s ≠ []) && s.all Char.isDigit

/-- `fmt.Sprintf("Chapter %d", n)`. -/
def chapterNumTitle (n : Nat) : List Char :=
  ("Chapter ".data) ++ (Nat.repr n).data

/-- One word of `titleCase`: upper-case the first character
(`strings.ToUpper(string(word[0])) + word[1:]`). -/
def titleCaseWord : List Char → List Char
  | [] => []
  | c :: rest => Char.toUpper c :: rest

/-- `calibre.titleCase`: all-caps strings longer than 10 bytes are
lower-cased and re-capitalised word by word; everything else is returned
unchanged. -/
def titleCase (s : List Char) : List Char :=
  if s = goToUpper s ∧ 10 < goLen s then
    goJoin ([' ']) ((goFields (goToLower s)).map titleCaseWord)
  else s

/-- `calibre.formatChapterTitle`. -/
def formatChapterTitle (title : List Char) : List Char :=
  let t1 := trimSpace title
  let t2 := goTrimSuffix t1 (".".data)
  if isRomanB t2 then ("Chapter ".data) ++ t2
  else if isDigitsB t2 then ("Chapter ".data) ++ t2
  else t2

/-- The regexp `^[IVXLC]+\.?$` as a whole-string test. -/
def isRomanDotB (s : List Char) : Bool :=
  isRomanB s || (s.getLast? == some '.' && isRomanB s.dropLast)

/-- The regexp `^\d+\.?$` as a whole-string test. -/
def isDigitsDotB (s : List Char) : Bool :=
  isDigitsB s || (s.getLast? == some '.' && isDigitsB s.dropLast)

/-- Matcher for `^(Chapter|CHAPTER)\s+(\d+|[IVXLC]+)`: returns the match
length at the current position.  The greedy `\s+` run is deterministic
because white space, digits and Roman-numeral letters are disjoint. -/
def matchChapterHeading (s : List Char) : Option Nat :=
  let lit : Option Nat :=
    if ("Chapter".data).isPrefixOf s then some 7
    else if ("CHAPTER".data).isPrefixOf s then some 7
    else none
  match lit with
  | none => none
  | some n =>
    let rest := s.drop n
    let w := (rest.takeWhile reIsSpace).length
    if w = 0 then none
    else
      let rest2 := rest.drop w
      let d := (rest2.takeWhile Char.isDigit).length
      if 0 < d then some (n + w + d)
      else
        let r := (rest2.takeWhile isRomanChar).length
        if 0 < r then some (n + w + r) else none

/-- Matcher for `^([IVXLC]+)\.\s+[A-Z]`. -/
def matchRomanDotCap (s : List Char) : Option Nat :=
  let r := (s.takeWhile isRomanChar).length
  if r = 0 then none
  else
    match s.drop r with
    | '.' :: rest =>
      let w := (rest.takeWhile reIsSpace).length
      if w = 0 then none
      else
        match rest.drop w with
        | c :: _ => if 'A' ≤ c ∧ c ≤ 'Z' then some (r + 1 + w + 1) else none
        | [] => none
    | _ => none

/-- Matcher for `^(\d+)\.\s+[A-Z]`. -/
def matchDigitDotCap (s : List Char) : Option Nat :=
  let r := (s.takeWhile Char.isDigit).length
  if r = 0 then none
  else
    match s.drop r with
    | '.' :: rest =>
      let w := (rest.takeWhile reIsSpace).length
      if w = 0 then none
      else
        match rest.drop w with
        | c :: _ => if 'A' ≤ c ∧ c ≤ 'Z' then some (r + 1 + w + 1) else none
        | [] => none
    | _ => none

/-- Position test for the multiline anchor `$`: end of input, or just before
a newline. -/
def dollarOk (l : List Char) : Bool :=
  l == [] || l.head? == some '\n'

/-- Backtracking search for greedy `\s*$` in multiline mode: the largest
`k ≤ m` white-space characters such that the position after them satisfies
`$`.  `k` counts down, mirroring the greedy-first, backtrack-on-failure
order of the regexp engine. -/
def dollarKSearch (t : List Char) : Nat → Option Nat
  | 0 => if dollarOk t then some 0 else none
  | k + 1 => if dollarOk (t.drop (k + 1)) then some (k + 1) else dollarKSearch t k

/-- Matcher for `(?m)^([IVXLC]+)\.\s*$`. -/
def matchRomanDotEOL (s : List Char) : Option Nat :=
  let r := (s.takeWhile isRomanChar).length
  if r = 0 then none
  else
    match s.drop r with
    | '.' :: t =>
      let m := (t.takeWhile reIsSpace).length
      (dollarKSearch t m).map (fun k => r + 1 + k)
    | _ => none

/-- Matcher for `(?m)^(\d+)\.\s*$`. -/
def matchDigitDotEOL (s : List Char) : Option Nat :=
  let r := (s.takeWhile Char.isDigit).length
  if r = 0 then none
  else
    match s.drop r with
    | '.' :: t =>
      let m := (t.takeWhile reIsSpace).length
      (dollarKSearch t m).map (fun k => r + 1 + k)
    | _ => none

/-- Matcher for `^Part\s+(\d+|[IVXLC]+)`. -/
def matchPartHeading (s : List Char) : Option Nat :=
  if ("Part".data).isPrefixOf s then
    let rest := s.drop 4
    let w := (rest.takeWhile reIsSpace).length
    if w = 0 then none
    else
      let rest2 := rest.drop w
      let d := (rest2.takeWhile Char.isDigit).length
      if 0 < d then some (4 + w + d)
      else
        let r := (rest2.takeWhile isRomanChar).length
        if 0 < r then some (4 + w + r) else none
  else none

/-- `regexp.FindAllStringIndex` (start offsets) for a `(?m)^`-anchored
pattern: scan left to right, try the matcher only at line starts, and resume
after the end of each (non-empty) match.  Every attempted step consumes at
least one character, so `length + 1` fuel is exact. -/
def reFindAllAux (m : List Char → Option Nat) :
    Nat → Nat → Bool → List Char → List Nat
  | 0, _, _, _ => []
  | _ + 1, _, _, [] => []
  | fuel + 1, pos, anchor, c :: cs =>
    if anchor then
      match m (c :: cs) with
      | some len =>
        pos :: reFindAllAux m fuel (pos + len)
          (((c :: cs).take len).getLast? == some '\n') ((c :: cs).drop len)
      | none => reFindAllAux m fuel (pos + 1) (c == '\n') cs
    else reFindAllAux m fuel (pos + 1) (c == '\n') cs

/-- All multiline-anchored match start offsets of `m` in `content`. -/
def reFindAllStarts (m : List Char → Option Nat) (content : List Char) :
    List Nat :=
  reFindAllAux m (content.length + 1) 0 true content

/-- The parts-building loop of `splitByChapterPatterns`: before every match
keep the trimmed span since the previous match if it is longer than 100
bytes and not the initial span, then keep the trimmed trailing span under
the same length test. -/
def buildPartsAux (content : List Char) : Nat → List Nat → List (List Char)
  | lastEnd, [] =>
    if lastEnd < content.length then
      let remaining := trimSpace (content.drop lastEnd)
      if 100 < goLen remaining then [remaining] else []
    else []
  | lastEnd, m :: ms =>
    if lastEnd < m then
      let before := trimSpace ((content.drop lastEnd).take (m - lastEnd))
      if 100 < goLen before ∧ 0 < lastEnd then before :: buildPartsAux content m ms
      else buildPartsAux content m ms
    else buildPartsAux content m ms

/-- The six chapter-heading matchers, in the priority order of the source's
`patterns` slice. -/
def patternMatchers : List (List Char → Option Nat) :=
  [matchChapterHeading, matchRomanDotCap, matchDigitDotCap,
   matchRomanDotEOL, matchDigitDotEOL, matchPartHeading]

/-- The pattern loop of `calibre.splitByChapterPatterns`: first pattern with
at least 3 matches whose built parts number at least 3 wins; otherwise the
whole text is one part. -/
def tryPatterns (content : List Char) :
    List (List Char → Option Nat) → List (List Char)
  | [] => [content]
  | m :: ms =>
    let starts := reFindAllStarts m content
    if 3 ≤ starts.length then
      let parts := buildPartsAux content 0 starts
      if 3 ≤ parts.length then parts else tryPatterns content ms
    else tryPatterns content ms

/-- `calibre.splitByChapterPatterns`. -/
def splitByChapterPatterns (content : List Char) : List (List Char) :=
  tryPatterns content patternMatchers

/-- Downward search for the greedy final `\s*\n` of the star-separator
pattern: the largest `j ≤ m` with the `j`-th white-space character a
newline (the regexp engine backtracks from the maximal run). -/
def lastNLSearch (t : List Char) : Nat → Option Nat
  | 0 => none
  | j + 1 => if t.get? j == some '\n' then some (j + 1) else lastNLSearch t j

/-- Matcher for `\n\s*\*\s*\*\s*\*\s*\n` at the current position (length of
the match).  Each inner `\s*` is deterministic because `*` is not white
space; the final `\s*\n` backtracks via `lastNLSearch`. -/
def matchStarSep : List Char → Option Nat
  | '\n' :: rest =>
    let w1 := (rest.takeWhile reIsSpace).length
    match rest.drop w1 with
    | '*' :: r1 =>
      let w2 := (r1.takeWhile reIsSpace).length
      match r1.drop w2 with
      | '*' :: r2 =>
        let w3 := (r2.takeWhile reIsSpace).length
        match r2.drop w3 with
        | '*' :: t =>
          let m := (t.takeWhile reIsSpace).length
          (lastNLSearch t m).map (fun j => 1 + w1 + 1 + w2 + 1 + w3 + 1 + j)
        | _ => none
      | _ => none
    | _ => none
  | _ => none

/-- `regexp.Split(content, -1)` for the star-separator pattern: scan left to
right, cut at every match, resume after it.  Fuel as in `reFindAllAux`. -/
def splitStarAux : Nat → List Char → List Char → List (List Char)
  | 0, acc, rest => [acc.reverse ++ rest]
  | _ + 1, acc, [] => [acc.reverse]
  | fuel + 1, acc, c :: cs =>
    match matchStarSep (c :: cs) with
    | some m => acc.reverse :: splitStarAux fuel [] ((c :: cs).drop m)
    | none => splitStarAux fuel (c :: acc) cs

/-- The star-separator regexp split. -/
def reSplitStar (content : List Char) : List (List Char) :=
  splitStarAux (content.length + 1) [] content

/-- The filtering loop of `splitByStarSeparator`: keep trimmed parts longer
than 500 bytes. -/
def filterLongParts : List (List Char) → List (List Char)
  | [] => []
  | p :: ps =>
    let t := trimSpace p
    if 500 < goLen t then t :: filterLongParts ps else filterLongParts ps

/-- `calibre.splitByStarSeparator`. -/
def splitByStarSeparator (content : List Char) : List (List Char) :=
  let chapters := filterLongParts (reSplitStar content)
  if 3 ≤ chapters.length then chapters else [content]

/-- The first-5-non-empty-lines collection loop of `detectChapterTitle`
(`budget` is how many more lines may be appended; the Go loop breaks after
appending the fifth). -/
def collectLines : List (List Char) → Nat → List (List Char)
  | [], _ => []
  | l :: ls, budget =>
    let t := trimSpace l
    if t = [] then collectLines ls budget
    else if budget ≤ 1 then [t]
    else t :: collectLines ls (budget - 1)

/-- The `nonEmptyLines` value computed by `detectChapterTitle`. -/
def nonEmptyLinesOf (content : List Char) : List (List Char) :=
  collectLines (goSplit '\n' content) 5

/-- Backtracking search for `\.\s+(.+)$`'s suffix: the largest `k ≥ 1`
white-space characters (within the maximal run) whose remainder is non-empty
and newline-free; returns that remainder (submatch 2). -/
def dotRestSearch (t : List Char) : Nat → Option (List Char)
  | 0 => none
  | k + 1 =>
    let rest := t.drop (k + 1)
    if rest ≠ [] ∧ ('\n' ∉ rest) then some rest else dotRestSearch t k

/-- Matcher for `^([IVXLC]+)\.\s+(.+)$` with its two submatches. -/
def matchRomanDotTitle (s : List Char) : Option (List Char × List Char) :=
  let r := (s.takeWhile isRomanChar).length
  if r = 0 then none
  else
    match s.drop r with
    | '.' :: t =>
      let m := (t.takeWhile reIsSpace).length
      (dotRestSearch t m).map (fun rest => (s.take r, rest))
    | _ => none

/-- The first-line checks of `detectChapterTitle` (everything after the
two-line Roman-numeral case). -/
def firstLineTitle (firstLine : List Char) (defaultNum : Nat) : List Char :=
  if (matchChapterHeading firstLine).isSome ∧ goLen firstLine < 80 then firstLine
  else
    match matchRomanDotTitle firstLine with
    | some (num, rest) =>
      ("Chapter ".data) ++ num ++ (": ".data) ++ titleCase rest
    | none =>
      if isRomanDotB firstLine then formatChapterTitle firstLine
      else if isDigitsDotB firstLine then formatChapterTitle firstLine
      else if goLen firstLine < 60 ∧ 3 < goLen firstLine then titleCase firstLine
      else chapterNumTitle defaultNum

/-- `calibre.detectChapterTitle`. -/
def detectChapterTitle (content : List Char) (defaultNum : Nat) : List Char :=
  match nonEmptyLinesOf content with
  | [] => chapterNumTitle defaultNum
  | [l0] => firstLineTitle l0 defaultNum
  | l0 :: l1 :: _ =>
    if isRomanB l0 then
      if 5 < goLen l1 ∧ goLen l1 < 100 then
        ("Chapter ".data) ++ l0 ++ (": ".data) ++ titleCase l1
      else ("Chapter ".data) ++ l0
    else firstLineTitle l0 defaultNum

/-- The `for i, part := range parts` emission loop of
`calibre.splitIntoChapters`: skip parts that trim to nothing, give the rest
a detected title and the chapter index `i` (the index into `parts`, not the
number of chapters emitted so far). -/
def chaptersFromParts : Nat → List (List Char) → List Chapter
  | _, [] => []
  | i, part :: rest =>
    let p := trimSpace part
    if p = [] then chaptersFromParts (i + 1) rest
    else NewChapter i (detectChapterTitle p (i + 1)) p :: chaptersFromParts (i + 1) rest

/-- `calibre.splitIntoChapters`. -/
def splitIntoChapters (content : List Char) : List Chapter :=
  let parts0 := goSplit '\x0c' content
  let parts1 := if parts0.length ≤ 1 then splitByStarSeparator content else parts0
  let parts2 := if parts1.length ≤ 1 then splitByChapterPatterns content else parts1
  chaptersFromParts 0 parts2

/-- The `nextHref` lookup of `extractChaptersFromOriginalNCX`:
`chapterEntries[i+1].Href` when there is a following entry, else `""`. -/
def headHref : List TOCEntry → List Char
  | [] => []
  | e :: _ => e.href

/-- The per-entry loop of `calibre.extractChaptersFromOriginalNCX`
(part_001 lines 96-122).  `fetch href nextHref` abstracts
`ncx.GetChapterContentRange(epubPath, href, nextHref)` (archive I/O);
entries whose fetch errors, or whose content has fewer than 50 fields, are
skipped; appended chapters get index `len(chapters)`. -/
def assembleOrigAux (fetch : List Char → List Char → Except Unit (List Char)) :
    Nat → List Chapter → List TOCEntry → List Chapter
  | _, acc, [] => acc
  | i, acc, entry :: rest =>
    match fetch entry.href (headHref rest) with
    | .error _ => assembleOrigAux fetch (i + 1) acc rest
    | .ok content =>
      if (goFields content).length < 50 then assembleOrigAux fetch (i + 1) acc rest
      else
        let title := if entry.title = [] then chapterNumTitle (i + 1) else entry.title
        assembleOrigAux fetch (i + 1) (acc ++ [NewChapter acc.length title content]) rest

/-- The chapter list produced by `extractChaptersFromOriginalNCX` from its
filtered TOC entries (the surrounding NCX parse and the emptiness errors are
the omitted I/O surface). -/
def chaptersFromOriginalNCX
    (fetch : List Char → List Char → Except Unit (List Char))
    (entries : List TOCEntry) : List Chapter :=
  assembleOrigAux fetch 0 [] entries

/-- The per-entry loop of `calibre.extractChaptersWithCalibreNCX`
(part_001 lines 231-248): `fetch href` abstracts
`ncx.GetChapterContent(epubPath, href)`; failed entries are skipped but the
appended chapter keeps the TOC position `i` as its index. -/
def assembleCalibreAux (fetch : List Char → Except Unit (List Char)) :
    Nat → List TOCEntry → List Chapter
  | _, [] => []
  | i, entry :: rest =>
    match fetch entry.href with
    | .error _ => assembleCalibreAux fetch (i + 1) rest
    | .ok content =>
      let title := if entry.title = [] then chapterNumTitle (i + 1) else entry.title
      NewChapter i title content :: assembleCalibreAux fetch (i + 1) rest

/-! ## General lemmas about the string helpers -/

theorem goLen_nil : goLen [] = 0 := rfl

theorem ne_nil_of_goLen_pos {p : List Char} {n : Nat} (h : n < goLen p) :
    p ≠ [] := by
  intro hp
  subst hp
  simp [goLen] at h

theorem goIndex_bound : ∀ (hay pat : List Char) (i : Nat),
    goIndex hay pat = some i → i + pat.length ≤ hay.length := by
  intro hay
  induction hay with
  | nil =>
    intro pat i h
    rw [goIndex] at h
    by_cases hp : pat.isPrefixOf ([] : List Char)
    · simp [hp] at h
      subst h
      have := (List.isPrefixOf_iff_prefix.mp hp).length_le
      simpa using this
    · simp [hp] at h
  | cons c cs ih =>
    intro pat i h
    rw [goIndex] at h
    by_cases hp : pat.isPrefixOf (c :: cs)
    · simp [hp] at h
      subst h
      simpa using (List.isPrefixOf_iff_prefix.mp hp).length_le
    · simp [hp] at h
      obtain ⟨j, hj, rfl⟩ := h
      have := ih pat j hj
      simp
      omega

theorem goIndex_mem : ∀ (hay pat : List Char) (i : Nat),
    goIndex hay pat = some i → ∀ c ∈ pat, c ∈ hay := by
  intro hay
  induction hay with
  | nil =>
    intro pat i h c hc
    rw [goIndex] at h
    by_cases hp : pat.isPrefixOf ([] : List Char)
    · exact absurd hc (by simpa using (List.isPrefixOf_iff_prefix.mp hp).subset hc)
    · simp [hp] at h
  | cons x cs ih =>
    intro pat i h c hc
    rw [goIndex] at h
    by_cases hp : pat.isPrefixOf (x :: cs)
    · exact (List.isPrefixOf_iff_prefix.mp hp).subset hc
    · simp [hp] at h
      obtain ⟨j, hj, _⟩ := h
      exact List.mem_cons_of_mem x (ih pat j hj c hc)

theorem dropWhile_head_not {p : Char → Bool} :
    ∀ (l : List Char) (c : Char) (cs : List Char), l.dropWhile p = c :: cs → p c = false := by
  intro l
  induction l with
  | nil => intro c cs h; simp at h
  | cons x xs ih =>
    intro c cs h
    rw [List.dropWhile_cons] at h
    by_cases hx : p x = true
    · rw [if_pos hx] at h
      exact ih c cs h
    · rw [if_neg hx] at h
      cases h
      simpa using hx

theorem dropWhile_self_idem (p : Char → Bool) (l : List Char) :
    (l.dropWhile p).dropWhile p = l.dropWhile p := by
  cases h : l.dropWhile p with
  | nil => simp
  | cons c cs =>
    rw [List.dropWhile_cons]
    simp [dropWhile_head_not l c cs h]

theorem getLast?_dropWhile (p : Char → Bool) :
    ∀ (l : List Char), l.dropWhile p ≠ [] → (l.dropWhile p).getLast? = l.getLast? := by
  intro l
  induction l with
  | nil => intro h; simp at h
  | cons x xs ih =>
    intro h
    rw [List.dropWhile_cons]
    by_cases hx : p x = true
    · rw [List.dropWhile_cons, if_pos hx] at h
      rw [if_pos hx, ih h]
      cases hxs : xs with
      | nil =>
        rw [hxs] at h
        simp at h
      | cons y ys => simp
    · simp [hx]

theorem trimSpace_idem (s : List Char) : trimSpace (trimSpace s) = trimSpace s := by
  unfold trimSpace
  set u := s.dropWhile goIsSpace with hu
  set v := u.reverse.dropWhile goIsSpace with hv
  have hdu : u.dropWhile goIsSpace = u := by rw [hu]; exact dropWhile_self_idem _ _
  have hdv : v.dropWhile goIsSpace = v := by rw [hv]; exact dropWhile_self_idem _ _
  have fact1 : v.reverse.dropWhile goIsSpace = v.reverse := by
    cases hvr : v.reverse with
    | nil => simp
    | cons d ds =>
      have hvne : v ≠ [] := by
        intro h
        rw [h] at hvr
        simp at hvr
      have h1 : v.getLast? = u.head? := by
        rw [hv]
        rw [getLast?_dropWhile _ _ (by rw [← hv]; exact hvne)]
        exact List.getLast?_reverse u
      have hd : some d = u.head? := by
        rw [← h1, ← List.head?_reverse, hvr]
        simp
      have hdns : goIsSpace d = false := by
        cases hucase : u with
        | nil =>
          rw [hucase] at hd
          simp at hd
        | cons e es =>
          rw [hucase] at hd
          have hd2 : d = e := by simpa using hd
          have hde : u.dropWhile goIsSpace = e :: es := by rw [hdu]; exact hucase
          rw [hd2]
          exact dropWhile_head_not u e es hde
      rw [List.dropWhile_cons, if_neg (by simp [hdns])]
  rw [fact1, List.reverse_reverse, hdv]

theorem trimSpace_eq_nil_iff (s : List Char) :
    trimSpace s = [] ↔ ∀ c ∈ s, goIsSpace c = true := by
  unfold trimSpace
  constructor
  · intro h c hc
    have h1 : (s.dropWhile goIsSpace).reverse.dropWhile goIsSpace = [] := by
      simpa using h
    have h2 : ∀ x ∈ (s.dropWhile goIsSpace).reverse, goIsSpace x = true :=
      List.dropWhile_eq_nil_iff.mp h1
    have h3 : ∀ x ∈ s.dropWhile goIsSpace, goIsSpace x = true := by
      intro x hx
      exact h2 x (by simpa using hx)
    have hs : s = s.takeWhile goIsSpace ++ s.dropWhile goIsSpace :=
      (List.takeWhile_append_dropWhile ..).symm
    rw [hs] at hc
    rcases List.mem_append.mp hc with h4 | h4
    · exact List.mem_takeWhile_imp h4
    · exact h3 c h4
  · intro h
    have : s.dropWhile goIsSpace = [] :=
      List.dropWhile_eq_nil_iff.mpr h
    rw [this]
    simp

theorem mem_trimSpace {c : Char} {s : List Char} (h : c ∈ trimSpace s) : c ∈ s := by
  unfold trimSpace at h
  rw [List.mem_reverse] at h
  have h1 := (List.dropWhile_sublist (l := (s.dropWhile goIsSpace).reverse) goIsSpace).mem h
  rw [List.mem_reverse] at h1
  exact (List.dropWhile_sublist goIsSpace).mem h1

theorem trimSpace_ne_nil_of_mem {c : Char} {s : List Char}
    (hc : c ∈ s) (hns : goIsSpace c = false) : trimSpace s ≠ [] := by
  intro h
  have := (trimSpace_eq_nil_iff s).mp h c hc
  rw [this] at hns
  exact absurd hns (by simp)

theorem goSplit_ne_nil (sep : Char) : ∀ (s : List Char), goSplit sep s ≠ [] := by
  intro s
  induction s with
  | nil => simp [goSplit]
  | cons c cs ih =>
    rw [goSplit]
    by_cases h : c = sep
    · simp [h]
    · rw [if_neg h]
      cases hg : goSplit sep cs with
      | nil => simp
      | cons p ps => simp

theorem mem_of_mem_goSplit {sep c : Char} :
    ∀ {s p : List Char}, p ∈ goSplit sep s → c ∈ p → c ∈ s := by
  intro s
  induction s with
  | nil =>
    intro p hp hc
    simp [goSplit] at hp
    subst hp
    simp at hc
  | cons x xs ih =>
    intro p hp hc
    rw [goSplit] at hp
    by_cases h : x = sep
    · rw [if_pos h] at hp
      rcases List.mem_cons.mp hp with rfl | hp2
      · simp at hc
      · exact List.mem_cons_of_mem x (ih hp2 hc)
    · rw [if_neg h] at hp
      cases hg : goSplit sep xs with
      | nil => exact absurd hg (goSplit_ne_nil sep xs)
      | cons q qs =>
        rw [hg] at hp
        rcases List.mem_cons.mp hp with rfl | hp2
        · rcases List.mem_cons.mp hc with rfl | hc2
          · exact List.mem_cons_self ..
          · exact List.mem_cons_of_mem x (ih (by rw [hg]; exact List.mem_cons_self ..) hc2)
        · exact List.mem_cons_of_mem x (ih (by rw [hg]; exact List.mem_cons_of_mem q hp2) hc)

theorem goSplit_mem_piece {sep c : Char} :
    ∀ {s : List Char}, c ∈ s → c ≠ sep → ∃ p ∈ goSplit sep s, c ∈ p := by
  intro s
  induction s with
  | nil => intro h; simp at h
  | cons x xs ih =>
    intro hc hne
    rw [goSplit]
    by_cases h : x = sep
    · rw [if_pos h]
      rcases List.mem_cons.mp hc with rfl | hc2
      · exact absurd h hne
      · obtain ⟨p, hp, hcp⟩ := ih hc2 hne
        exact ⟨p, List.mem_cons_of_mem _ hp, hcp⟩
    · rw [if_neg h]
      cases hg : goSplit sep xs with
      | nil => exact absurd hg (goSplit_ne_nil sep xs)
      | cons q qs =>
        rcases List.mem_cons.mp hc with rfl | hc2
        · exact ⟨c :: q, List.mem_cons_self .., List.mem_cons_self ..⟩
        · obtain ⟨p, hp, hcp⟩ := ih hc2 hne
          rw [hg] at hp
          rcases List.mem_cons.mp hp with rfl | hp2
          · exact ⟨x :: p, List.mem_cons_self .., List.mem_cons_of_mem x hcp⟩
          · exact ⟨p, List.mem_cons_of_mem _ hp2, hcp⟩

theorem mem_of_mem_goSplit_piece_not_sep {sep : Char} :
    ∀ {s p : List Char}, p ∈ goSplit sep s → sep ∉ p := by
  intro s
  induction s with
  | nil =>
    intro p hp
    simp [goSplit] at hp
    subst hp
    simp
  | cons x xs ih =>
    intro p hp
    rw [goSplit] at hp
    by_cases h : x = sep
    · rw [if_pos h] at hp
      rcases List.mem_cons.mp hp with rfl | hp2
      · simp
      · exact ih hp2
    · rw [if_neg h] at hp
      cases hg : goSplit sep xs with
      | nil => exact absurd hg (goSplit_ne_nil sep xs)
      | cons q qs =>
        rw [hg] at hp
        rcases List.mem_cons.mp hp with rfl | hp2
        · intro hmem
          rcases List.mem_cons.mp hmem with h1 | h2
          · exact h h1.symm
          · exact ih (by rw [hg]; exact List.mem_cons_self ..) h2
        · exact ih (by rw [hg]; exact List.mem_cons_of_mem q hp2)

theorem goSplit_of_not_mem {sep : Char} :
    ∀ {a : List Char}, sep ∉ a → goSplit sep a = [a] := by
  intro a
  induction a with
  | nil => intro _; rfl
  | cons x xs ih =>
    intro h
    rw [goSplit]
    have hx : ¬(x = sep) := by
      intro he
      exact h (he ▸ List.mem_cons_self ..)
    rw [if_neg hx, ih (fun hm => h (List.mem_cons_of_mem x hm))]

theorem goSplit_append_cons {sep : Char} :
    ∀ {a : List Char} (b : List Char), sep ∉ a →
      goSplit sep (a ++ sep :: b) = a :: goSplit sep b := by
  intro a
  induction a with
  | nil =>
    intro b _
    rw [List.nil_append, goSplit]
    simp
  | cons x xs ih =>
    intro b h
    have hx : ¬(x = sep) := by
      intro he
      exact h (he ▸ List.mem_cons_self ..)
    rw [List.cons_append, goSplit, if_neg hx, ih b (fun hm => h (List.mem_cons_of_mem x hm))]

/-! ## Chapter-index lemmas -/

theorem NewChapter_index (i : Nat) (t c : List Char) : (NewChapter i t c).index = i := rfl

theorem chaptersFromParts_ne_nil :
    ∀ (parts : List (List Char)) (i : Nat),
      (∃ p ∈ parts, trimSpace p ≠ []) → chaptersFromParts i parts ≠ [] := by
  intro parts
  induction parts with
  | nil =>
    intro i h
    obtain ⟨p, hp, _⟩ := h
    simp at hp
  | cons q qs ih =>
    intro i h
    rw [chaptersFromParts]
    by_cases hq : trimSpace q = []
    · rw [if_pos hq]
      obtain ⟨p, hp, hpt⟩ := h
      rcases List.mem_cons.mp hp with rfl | hp2
      · exact absurd hq hpt
      · exact ih (i + 1) ⟨p, hp2, hpt⟩
    · rw [if_neg hq]
      simp

theorem chaptersFromParts_index_lb :
    ∀ (parts : List (List Char)) (i : Nat) (ch : Chapter),
      ch ∈ chaptersFromParts i parts → i ≤ ch.index := by
  intro parts
  induction parts with
  | nil => intro i ch h; simp [chaptersFromParts] at h
  | cons q qs ih =>
    intro i ch h
    rw [chaptersFromParts] at h
    by_cases hq : trimSpace q = []
    · rw [if_pos hq] at h
      exact Nat.le_of_succ_le (ih (i + 1) ch h)
    · rw [if_neg hq] at h
      rcases List.mem_cons.mp h with rfl | h2
      · exact Nat.le_refl _
      · exact Nat.le_of_succ_le (ih (i + 1) ch h2)

theorem chaptersFromParts_pairwise :
    ∀ (parts : List (List Char)) (i : Nat),
      ((chaptersFromParts i parts).map Chapter.index).Pairwise (· < ·) := by
  intro parts
  induction parts with
  | nil => intro i; simp [chaptersFromParts]
  | cons q qs ih =>
    intro i
    rw [chaptersFromParts]
    by_cases hq : trimSpace q = []
    · rw [if_pos hq]
      exact ih (i + 1)
    · rw [if_neg hq]
      rw [List.map_cons, List.pairwise_cons]
      refine ⟨?_, ih (i + 1)⟩
      intro x hx
      rw [List.mem_map] at hx
      obtain ⟨ch, hch, rfl⟩ := hx
      have := chaptersFromParts_index_lb qs (i + 1) ch hch
      rw [NewChapter_index]
      omega

theorem assembleOrigAux_indices
    (fetch : List Char → List Char → Except Unit (List Char)) :
    ∀ (entries : List TOCEntry) (i : Nat) (acc : List Chapter),
      acc.map Chapter.index = List.range acc.length →
      (assembleOrigAux fetch i acc entries).map Chapter.index =
        List.range (assembleOrigAux fetch i acc entries).length := by
  intro entries
  induction entries with
  | nil => intro i acc h; exact h
  | cons entry rest ih =>
    intro i acc h
    simp only [assembleOrigAux]
    cases hf : fetch entry.href (headHref rest) with
    | error e => exact ih (i + 1) acc h
    | ok content =>
      dsimp only
      by_cases hw : (goFields content).length < 50
      · rw [if_pos hw]
        exact ih (i + 1) acc h
      · rw [if_neg hw]
        apply ih (i + 1)
        rw [List.map_append, List.length_append, h]
        simp [List.range_succ, NewChapter_index]

theorem assembleCalibreAux_index_lb
    (fetch : List Char → Except Unit (List Char)) :
    ∀ (entries : List TOCEntry) (i : Nat) (ch : Chapter),
      ch ∈ assembleCalibreAux fetch i entries → i ≤ ch.index := by
  intro entries
  induction entries with
  | nil => intro i ch h; simp [assembleCalibreAux] at h
  | cons entry rest ih =>
    intro i ch h
    rw [assembleCalibreAux] at h
    cases hf : fetch entry.href with
    | error e =>
      rw [hf] at h
      exact Nat.le_of_succ_le (ih (i + 1) ch h)
    | ok content =>
      rw [hf] at h
      rcases List.mem_cons.mp h with rfl | h2
      · exact Nat.le_refl _
      · exact Nat.le_of_succ_le (ih (i + 1) ch h2)

theorem assembleCalibreAux_pairwise
    (fetch : List Char → Except Unit (List Char)) :
    ∀ (entries : List TOCEntry) (i : Nat),
      ((assembleCalibreAux fetch i entries).map Chapter.index).Pairwise (· < ·) := by
  intro entries
  induction entries with
  | nil => intro i; simp [assembleCalibreAux]
  | cons entry rest ih =>
    intro i
    rw [assembleCalibreAux]
    cases hf : fetch entry.href with
    | error e => exact ih (i + 1)
    | ok content =>
      rw [List.map_cons, List.pairwise_cons]
      refine ⟨?_, ih (i + 1)⟩
      intro x hx
      rw [List.mem_map] at hx
      obtain ⟨ch, hch, rfl⟩ := hx
      have := assembleCalibreAux_index_lb fetch rest (i + 1) ch hch
      rw [NewChapter_index]
      omega

/-- Claim C1, counterexample: on the input `"\x0cHello"` the form-feed split
yields the parts `["", "Hello"]`; the empty part is skipped but the emitted
chapter keeps the part index `1`, so the single chapter at position 0 has
`Index = 1`, not `0` — the emitted indices are not the dense `0`-based
sequence the claim asserts for every extraction path. -/
theorem c1_counterexample :
    (splitIntoChapters (('\x0c' : Char) :: ("Hello".data))).map Chapter.index ≠
      List.range (splitIntoChapters (('\x0c' : Char) :: ("Hello".data))).length := by
  decide

/-- The part list selected by `splitIntoChapters` before its emission loop:
the same three-strategy selection (form feed, then star separator, then
heading patterns), named so the emitted indices can be related to part
positions. -/
def segmentedParts (content : List Char) : List (List Char) :=
  let parts0 := goSplit '\x0c' content
  let parts1 := if parts0.length ≤ 1 then splitByStarSeparator content else parts0
  if parts1.length ≤ 1 then splitByChapterPatterns content else parts1

theorem chaptersFromParts_eq_filterMap :
    ∀ (parts : List (List Char)) (i : Nat),
      chaptersFromParts i parts =
        (List.enumFrom i parts).filterMap (fun pr =>
          if trimSpace pr.2 = [] then none
          else some (NewChapter pr.1 (detectChapterTitle (trimSpace pr.2) (pr.1 + 1))
            (trimSpace pr.2))) := by
  intro parts
  induction parts with
  | nil => intro i; rfl
  | cons part rest ih =>
    intro i
    rw [chaptersFromParts]
    rw [show List.enumFrom i (part :: rest) = (i, part) :: List.enumFrom (i + 1) rest
      from rfl]
    by_cases hp : trimSpace part = []
    · rw [if_pos hp, List.filterMap_cons_none (by dsimp only; rw [if_pos hp])]
      exact ih (i + 1)
    · rw [if_neg hp, List.filterMap_cons_some (by dsimp only; rw [if_neg hp]),
        ih (i + 1)]

theorem assembleCalibreAux_eq_filterMap
    (fetch : List Char → Except Unit (List Char)) :
    ∀ (entries : List TOCEntry) (i : Nat),
      assembleCalibreAux fetch i entries =
        (List.enumFrom i entries).filterMap (fun pr =>
          match fetch pr.2.href with
          | .error _ => none
          | .ok content =>
            some (NewChapter pr.1
              (if pr.2.title = [] then chapterNumTitle (pr.1 + 1) else pr.2.title)
              content)) := by
  intro entries
  induction entries with
  | nil => intro i; rfl
  | cons entry rest ih =>
    intro i
    rw [assembleCalibreAux]
    rw [show List.enumFrom i (entry :: rest) = (i, entry) :: List.enumFrom (i + 1) rest
      from rfl]
    cases hf : fetch entry.href with
    | error e =>
      rw [List.filterMap_cons_none (by dsimp only; rw [hf])]
      exact ih (i + 1)
    | ok content =>
      rw [List.filterMap_cons_some (by dsimp only; rw [hf]), ih (i + 1)]

/-- Claim C1, amended: chapters produced by the original-NCX path do carry
dense, contiguous, 0-based indices assigned at emission time (`Index` equals
the position, for every fetch behaviour and entry list).  In the
text-segmentation path and the Calibre-NCX path each emitted chapter's
`Index` is its position in the pre-skip part/entry list: the output equals
the position-indexed filter of that list (`enumFrom`/`filterMap`), so the
indices are 0-based and strictly increasing, with gaps exactly where an
empty trimmed part or a failed content extraction was skipped. -/
theorem c1_amended :
    (∀ (fetch : List Char → List Char → Except Unit (List Char))
        (entries : List TOCEntry),
        (chaptersFromOriginalNCX fetch entries).map Chapter.index =
          List.range (chaptersFromOriginalNCX fetch entries).length) ∧
    (∀ content : List Char,
        splitIntoChapters content =
          (List.enumFrom 0 (segmentedParts content)).filterMap (fun pr =>
            if trimSpace pr.2 = [] then none
            else some (NewChapter pr.1 (detectChapterTitle (trimSpace pr.2) (pr.1 + 1))
              (trimSpace pr.2)))) ∧
    (∀ (fetch : List Char → Except Unit (List Char))
        (entries : List TOCEntry) (i : Nat),
        assembleCalibreAux fetch i entries =
          (List.enumFrom i entries).filterMap (fun pr =>
            match fetch pr.2.href with
            | .error _ => none
            | .ok content =>
              some (NewChapter pr.1
                (if pr.2.title = [] then chapterNumTitle (pr.1 + 1) else pr.2.title)
                content))) := by
  refine ⟨?_, ?_, ?_⟩
  · intro fetch entries
    exact assembleOrigAux_indices fetch entries 0 [] (by simp)
  · intro content
    have h0 : splitIntoChapters content = chaptersFromParts 0 (segmentedParts content) := rfl
    rw [h0, chaptersFromParts_eq_filterMap]
  · intro fetch entries i
    exact assembleCalibreAux_eq_filterMap fetch entries i

/-! ## Claim C2: star-separator split with exactly 2 separator lines -/

/-- A star-separator line, exactly as matched by the pattern. -/
def starSepLine : List Char := ('\n' : Char) :: ("* * *".data) ++ [('\n' : Char)]

/-- An input with exactly 2 star-separator lines whose 3 parts each have
trimmed length 501 > 500. -/
def starEx : List Char :=
  List.replicate 501 'a' ++ starSepLine ++ List.replicate 501 'b' ++
    starSepLine ++ List.replicate 501 'c'

set_option maxRecDepth 10000 in
/-- Claim C2, counterexample: `starEx` contains exactly 2 star-separator
lines (the regexp split yields 3 parts) and every part's trimmed length is
501 ≥ 500, yet `splitByStarSeparator` does not return the whole text as a
single part — all 3 parts survive the > 500 filter, so the strategy
succeeds with 3 parts. -/
theorem c2_counterexample :
    reSplitStar starEx =
      [List.replicate 501 'a', List.replicate 501 'b', List.replicate 501 'c'] ∧
    splitByStarSeparator starEx ≠ [starEx] := by
  decide

/-- Claim C2, amended: for every input text containing exactly 2
star-separator lines (so the regexp split yields exactly 3 parts) in which
every part's trimmed length strictly exceeds 500 bytes, the star-separator
split succeeds and returns those 3 trimmed parts; and, for every input, the
whole text is returned as a single part exactly when fewer than 3 parts
survive the > 500-byte filter. -/
theorem c2_amended :
    (∀ content p1 p2 p3 : List Char,
      reSplitStar content = [p1, p2, p3] →
      500 < goLen (trimSpace p1) →
      500 < goLen (trimSpace p2) →
      500 < goLen (trimSpace p3) →
      splitByStarSeparator content =
        [trimSpace p1, trimSpace p2, trimSpace p3]) ∧
    (∀ content : List Char,
      splitByStarSeparator content = [content] ↔
        (filterLongParts (reSplitStar content)).length < 3) := by
  constructor
  · intro content p1 p2 p3 hsplit h1 h2 h3
    have hf : filterLongParts [p1, p2, p3] =
        [trimSpace p1, trimSpace p2, trimSpace p3] := by
      rw [filterLongParts, if_pos h1, filterLongParts, if_pos h2,
        filterLongParts, if_pos h3, filterLongParts]
    simp only [splitByStarSeparator]
    rw [hsplit, hf, if_pos (by simp)]
  · intro content
    constructor
    · intro h
      by_contra hge
      push_neg at hge
      have he : splitByStarSeparator content =
          filterLongParts (reSplitStar content) := by
        simp only [splitByStarSeparator]
        rw [if_pos hge]
      rw [he] at h
      have hlen := congrArg List.length h
      simp at hlen
      omega
    · intro h
      simp only [splitByStarSeparator]
      rw [if_neg (by omega)]

set_option maxRecDepth 10000 in
/-- Witness for C2's universal clause at `starEx`: its star split has
exactly 3 parts (2 separator lines) and each part's trimmed length is
501 > 500, so the split returns the 3 trimmed parts. -/
theorem c2_witness :
    splitByStarSeparator starEx =
      [trimSpace (List.replicate 501 'a'), trimSpace (List.replicate 501 'b'),
        trimSpace (List.replicate 501 'c')] :=
  c2_amended.1 starEx (List.replicate 501 'a') (List.replicate 501 'b')
    (List.replicate 501 'c') (by decide) (by decide) (by decide) (by decide)

/-! ## Claim C10: the 50-word filter of the original-NCX path -/

theorem assembleOrigAux_wordcount
    (fetch : List Char → List Char → Except Unit (List Char)) :
    ∀ (entries : List TOCEntry) (i : Nat) (acc : List Chapter),
      (∀ ch ∈ acc, 50 ≤ (goFields ch.content).length) →
      ∀ ch ∈ assembleOrigAux fetch i acc entries,
        50 ≤ (goFields ch.content).length := by
  intro entries
  induction entries with
  | nil => intro i acc h; exact h
  | cons entry rest ih =>
    intro i acc h
    simp only [assembleOrigAux]
    cases hf : fetch entry.href (headHref rest) with
    | error e => exact ih (i + 1) acc h
    | ok content =>
      dsimp only
      by_cases hw : (goFields content).length < 50
      · rw [if_pos hw]
        exact ih (i + 1) acc h
      · rw [if_neg hw]
        apply ih (i + 1)
        intro ch hch
        rcases List.mem_append.mp hch with h1 | h1
        · exact h ch h1
        · rcases List.mem_singleton.mp h1 with rfl
          simpa [NewChapter] using Nat.le_of_not_lt hw

/-- Claim C10: every chapter emitted by the original-NCX extraction loop has
content with at least 50 whitespace-delimited fields — entries with fewer
are silently skipped, over and above the skip-on-extraction-failure rule. -/
theorem c10_min_words
    (fetch : List Char → List Char → Except Unit (List Char))
    (entries : List TOCEntry) (ch : Chapter)
    (h : ch ∈ chaptersFromOriginalNCX fetch entries) :
    50 ≤ (goFields ch.content).length :=
  assembleOrigAux_wordcount fetch entries 0 [] (by simp) ch h

/-- Content consisting of exactly 50 words. -/
def fiftyWords : List Char := (List.replicate 50 ("w ".data)).flatten

/-- A concrete TOC entry for the C10 witness. -/
def tocE1 : TOCEntry :=
  { title := ("One".data), level := 1, href := ("a.html".data), order := 1 }

/-- Witness for C10 at a concrete fetch function and entry list. -/
theorem c10_witness :
    50 ≤ (goFields (NewChapter 0 ("One".data) fiftyWords).content).length :=
  c10_min_words (fun _ _ => Except.ok fiftyWords) [tocE1]
    (NewChapter 0 ("One".data) fiftyWords) (by decide)

/-! ## Claim C8: the title inferencer -/

/-- Claim C8: the three concrete title inferences, plus the general
6-to-99-byte rule for the second line in the bare-Roman-numeral case. -/
theorem c8_title_inference :
    detectChapterTitle ("IV\nTHE LONG NIGHT".data) 1 =
      ("Chapter IV: The Long Night".data) ∧
    detectChapterTitle ("3.".data) 1 = ("Chapter 3".data) ∧
    detectChapterTitle ("A SHORT LINE".data) 1 = ("A Short Line".data) ∧
    ∀ (content : List Char) (n : Nat) (l0 l1 : List Char)
      (rest : List (List Char)),
      nonEmptyLinesOf content = l0 :: l1 :: rest →
      isRomanB l0 = true →
      detectChapterTitle content n =
        (if 6 ≤ goLen l1 ∧ goLen l1 ≤ 99 then
          ("Chapter ".data) ++ l0 ++ (": ".data) ++ titleCase l1
        else ("Chapter ".data) ++ l0) := by
  refine ⟨by decide, by decide, by decide, ?_⟩
  intro content n l0 l1 rest hlines hroman
  rw [detectChapterTitle.eq_def, hlines]
  dsimp only
  rw [hroman]
  by_cases h : 5 < goLen l1 ∧ goLen l1 < 100
  · have h2 : 6 ≤ goLen l1 ∧ goLen l1 ≤ 99 := by omega
    rw [if_pos h, if_pos h2, if_pos rfl]
  · have h2 : ¬(6 ≤ goLen l1 ∧ goLen l1 ≤ 99) := by omega
    rw [if_neg h, if_neg h2, if_pos rfl]

/-- Witness for the general clause of C8: `"IV\nABCDEF"` has a bare Roman
first line and a 6-byte second line, so the inferred title takes the
`Chapter IV: ...` form. -/
theorem c8_witness :
    detectChapterTitle ("IV\nABCDEF".data) 1 =
      ("Chapter ".data) ++ ("IV".data) ++ (": ".data) ++ titleCase ("ABCDEF".data) := by
  have h := c8_title_inference.2.2.2 ("IV\nABCDEF".data) 1 ("IV".data)
    ("ABCDEF".data) [] (by decide) (by decide)
  rw [h, if_pos (by decide)]

/-! ## Claim C9: balanced removal of script/style regions -/

theorem removeTagAux_succ (tag : List Char) (fuel : Nat) (html : List Char) :
    removeTagAux tag (fuel + 1) html =
      match removeTagStep html tag with
      | none => html
      | some html' => removeTagAux tag fuel html' := rfl

theorem closeTagOf_length (tag : List Char) :
    (closeTagOf tag).length = tag.length + 3 := by
  rw [closeTagOf]
  simp

theorem removeTagStep_shrink (html tag html' : List Char)
    (h : removeTagStep html tag = some html') :
    html'.length + (closeTagOf tag).length ≤ html.length := by
  rw [removeTagStep] at h
  cases hs : goIndex (html.map Char.toLower) (('<' : Char) :: tag) with
  | none =>
    rw [hs] at h
    simp at h
  | some start =>
    rw [hs] at h
    dsimp only at h
    cases he : goIndex (html.drop start) (closeTagOf tag) with
    | none =>
      rw [he] at h
      simp at h
    | some e =>
      rw [he] at h
      dsimp only at h
      have hb1 := goIndex_bound _ _ _ hs
      have hb2 := goIndex_bound _ _ _ he
      rw [List.length_map] at hb1
      rw [List.length_drop] at hb2
      cases h
      rw [List.length_append, List.length_take, List.length_drop]
      simp at hb1
      omega

theorem removeTagAux_fuel_indep :
    ∀ (n : Nat) (tag html : List Char), html.length ≤ n →
      ∀ fuel, html.length < fuel →
        removeTagAux tag fuel html = removeTag html tag := by
  intro n
  induction n with
  | zero =>
    intro tag html hle fuel hf
    have hnil : html = [] := List.length_eq_zero.mp (Nat.le_zero.mp hle)
    subst hnil
    cases fuel with
    | zero => omega
    | succ f =>
      rw [removeTag]
      cases hstep : removeTagStep [] tag with
      | none => simp only [removeTagAux_succ, hstep]
      | some html' =>
        have h1 := removeTagStep_shrink [] tag html' hstep
        have h2 := closeTagOf_length tag
        rw [h2] at h1
        simp only [List.length_nil] at h1
        omega
  | succ n ih =>
    intro tag html hle fuel hf
    cases fuel with
    | zero => omega
    | succ f =>
      rw [removeTag]
      cases hstep : removeTagStep html tag with
      | none => simp only [removeTagAux_succ, hstep]
      | some html' =>
        simp only [removeTagAux_succ, hstep]
        have hsh := removeTagStep_shrink html tag html' hstep
        have hct := closeTagOf_length tag
        rw [ih tag html' (by omega) f (by omega),
            ih tag html' (by omega) html.length (by omega)]

/-- Claim C9: balanced removal of a non-text tag region terminates on every
input — each successful iteration strictly shrinks the string (by at least
the closing tag's length), so the fuelled loop is independent of any
sufficient fuel — and when the opening tag has no matching closing tag the
loop stops with the whole string (the unmatched opening tag and everything
after it) left intact. -/
theorem c9_removeTag_behaviour :
    (∀ html tag html' : List Char, removeTagStep html tag = some html' →
      html'.length < html.length) ∧
    (∀ (tag html : List Char) (fuel : Nat), html.length < fuel →
      removeTagAux tag fuel html = removeTag html tag) ∧
    (∀ (html tag : List Char) (s : Nat),
      goIndex (html.map Char.toLower) (('<' : Char) :: tag) = some s →
      goIndex (html.drop s) (closeTagOf tag) = none →
      removeTag html tag = html) := by
  refine ⟨?_, ?_, ?_⟩
  · intro html tag html' h
    have h1 := removeTagStep_shrink html tag html' h
    have h2 := closeTagOf_length tag
    omega
  · intro tag html fuel hf
    exact removeTagAux_fuel_indep html.length tag html (Nat.le_refl _) fuel hf
  · intro html tag s hopen hclose
    have hstep : removeTagStep html tag = none := by
      rw [removeTagStep, hopen]
      dsimp only
      rw [hclose]
    rw [removeTag]
    simp only [removeTagAux_succ, hstep]

/-- Witness for C9: in `"<script>x"` the opening tag is found at offset 0
but no closing tag exists, and `removeTag` leaves the string intact; the
fuel-independence clause is witnessed at the same input with fuel 50. -/
theorem c9_witness :
    removeTag ("<script>x".data) ("script".data) = ("<script>x".data) ∧
    removeTagAux ("script".data) 50 ("<script>x".data) =
      removeTag ("<script>x".data) ("script".data) :=
  ⟨c9_removeTag_behaviour.2.2 ("<script>x".data) ("script".data) 0
      (by decide) (by decide),
    c9_removeTag_behaviour.2.1 ("script".data) ("<script>x".data) 50 (by decide)⟩

/-! ## Claim C6: fragment-bounded slicing stays inside the matched offsets -/

theorem firstPatternIdx_exists :
    ∀ (pats : List (List Char)) (hay : List Char) (i : Nat),
      firstPatternIdx hay pats = some i →
      ∃ p ∈ pats, goIndex hay p = some i := by
  intro pats
  induction pats with
  | nil => intro hay i h; simp [firstPatternIdx] at h
  | cons p ps ih =>
    intro hay i h
    rw [firstPatternIdx] at h
    cases hg : goIndex hay p with
    | some j =>
      rw [hg] at h
      cases h
      exact ⟨p, List.mem_cons_self .., hg⟩
    | none =>
      rw [hg] at h
      dsimp only at h
      obtain ⟨q, hq, hgi⟩ := ih hay i h
      exact ⟨q, List.mem_cons_of_mem p hq, hgi⟩

theorem attrPatterns_ne_nil (frag : List Char) :
    ∀ p ∈ attrPatterns frag, p ≠ [] := by
  intro p hp
  rw [attrPatterns] at hp
  simp only [List.mem_cons, List.not_mem_nil, or_false] at hp
  rcases hp with rfl | rfl | rfl | rfl
  · simp
  · simp
  · simp
  · simp

/-- Claim C6: when both the start fragment's attribute and the end
fragment's attribute (searched after the start) are found, the slice
returned by `extractFragmentContent` occupies exactly the region between
the two matched offsets: it starts no earlier than the start offset and
extends no further than the end offset. -/
theorem c6_fragment_bounds (html sf ef : List Char) (s e : Nat)
    (hs : findStartIdx html sf = some s)
    (he : findEndIdx html s ef = some e) :
    s < e ∧
      html.take s ++ extractFragmentContent html sf ef ++ html.drop e = html := by
  have hse : s < e := by
    rw [findEndIdx] at he
    by_cases hef : ef = []
    · rw [if_pos hef] at he
      simp at he
    · rw [if_neg hef] at he
      cases hfi : firstPatternIdx (html.drop (s + 1)) (attrPatterns ef) with
      | none => rw [hfi] at he; simp at he
      | some idx =>
        rw [hfi] at he
        simp at he
        omega
  refine ⟨hse, ?_⟩
  rw [extractFragmentContent, hs]
  dsimp only
  rw [he]
  simp only [Option.getD_some]
  have h1 : (html.drop s).drop (e - s) = html.drop e := by
    rw [List.drop_drop]
    congr 1
    omega
  have h2 : (html.drop s).take (e - s) ++ html.drop e = html.drop s := by
    rw [← h1]
    exact List.take_append_drop ..
  rw [List.append_assoc, h2]
  exact List.take_append_drop ..

/-- A concrete markup string for the C6 witness: `id="a"` occurs at offset
2 and `id="b"` at offset 11. -/
def htmlW : List Char := ("x id=\"a\" y id=\"b\" z".data)

/-- Witness for C6 at `htmlW` with fragments `a` and `b`. -/
theorem c6_witness :
    2 < 11 ∧
      htmlW.take 2 ++ extractFragmentContent htmlW ("a".data) ("b".data) ++
        htmlW.drop 11 = htmlW :=
  c6_fragment_bounds htmlW ("a".data) ("b".data) 2 11 (by decide) (by decide)

/-! ## Claim C4: the same-file test for the end boundary -/

/-- Claim C4, counterexample: the claim's symmetric same-file relation holds
for `start = "ch1.html#a"` and `next = "OEBPS/ch1.html#b"` (the start path
is a suffix of the next path, and `next` carries the non-empty fragment
`b`), yet the code computes no end fragment — the slice is the same as with
no `next` at all — because the code only tests whether next's path is a
suffix of start's path.  With the paths swapped into the code's direction
(`next = "ch1.html#b"`), the end fragment is used and the result differs. -/
theorem c4_counterexample :
    ("ch1.html".data).isSuffixOf ("OEBPS/ch1.html".data) = true ∧
    endFragmentOf ("ch1.html".data) ("OEBPS/ch1.html#b".data) = [] ∧
    chapterTextFromFile ("<p id=\"a\">X</p><p id=\"b\">Y</p>".data)
        ("ch1.html#a".data) ("OEBPS/ch1.html#b".data) =
      chapterTextFromFile ("<p id=\"a\">X</p><p id=\"b\">Y</p>".data)
        ("ch1.html#a".data) [] ∧
    chapterTextFromFile ("<p id=\"a\">X</p><p id=\"b\">Y</p>".data)
        ("ch1.html#a".data) ("ch1.html#b".data) ≠
      chapterTextFromFile ("<p id=\"a\">X</p><p id=\"b\">Y</p>".data)
        ("ch1.html#a".data) [] := by
  decide

/-- Claim C4, amended: `GetChapterContentRange` treats `next` as same-file
exactly when next's raw path component is a suffix of start's raw path
component (the equality and empty-path disjuncts of the code's test are
special cases of the suffix test), and only in that case — when `next` also
carries a fragment — does that fragment become the end boundary.  The
relation is one-directional and runs on the paths before normalisation. -/
theorem c4_amended :
    (∀ fp np : List Char,
      ((np = fp ∨ np = [] ∨ np.isSuffixOf fp = true) ↔ np.isSuffixOf fp = true)) ∧
    (∀ fp nextHref : List Char,
      endFragmentOf fp nextHref =
        match splitHash nextHref with
        | (np, some frag) => if np.isSuffixOf fp = true then frag else []
        | (_, none) => []) := by
  have hiff : ∀ fp np : List Char,
      ((np = fp ∨ np = [] ∨ np.isSuffixOf fp = true) ↔ np.isSuffixOf fp = true) := by
    intro fp np
    constructor
    · intro h
      rcases h with rfl | rfl | h
      · exact List.isSuffixOf_iff_suffix.mpr (List.suffix_refl _)
      · exact List.isSuffixOf_iff_suffix.mpr List.nil_suffix
      · exact h
    · intro h
      exact Or.inr (Or.inr h)
  refine ⟨hiff, ?_⟩
  intro fp nextHref
  rw [endFragmentOf]
  by_cases hn : nextHref = []
  · rw [if_pos hn, hn]
    rfl
  · rw [if_neg hn]
    cases hsp : splitHash nextHref with
    | mk np frag? =>
      cases frag? with
      | none => rfl
      | some frag =>
        dsimp only
        by_cases hsuf : np.isSuffixOf fp = true
        · rw [if_pos ((hiff fp np).mpr hsuf), if_pos hsuf]
        · rw [if_neg ?_, if_neg hsuf]
          intro hcond
          exact hsuf ((hiff fp np).mp hcond)

/-! ## Claim C5: GetTOC flattens in depth-first pre-order -/

mutual
/-- Modelled from the spec's words (§4.1, §8): depth-first pre-order flatten
— every node becomes one entry (whitespace-trimmed title, its level, href,
explicit order) followed immediately by its entire flattened subtree at
`level + 1`; the node's next sibling comes after the whole subtree.  Root
points are flattened at level 1. -/
def preorderFlatten (np : NavPoint) (level : Nat) : List TOCEntry :=
  match np with
  | .mk _ po _ label src children =>
    { title := trimSpace label, level := level, href := src, order := po } ::
      preorderFlattenList children (level + 1)

/-- Pre-order flattening of a sibling list: each node's flattening precedes
its next sibling's. -/
def preorderFlattenList : List NavPoint → Nat → List TOCEntry
  | [], _ => []
  | c :: rest, level => preorderFlatten c level ++ preorderFlattenList rest level
end

theorem flatten_eq_aux : ∀ n : Nat,
    (∀ np : NavPoint, sizeOf np ≤ n → ∀ level : Nat,
      flattenNavPoint np level = preorderFlatten np level) ∧
    (∀ nps : List NavPoint, sizeOf nps ≤ n → ∀ (level : Nat) (acc : List TOCEntry),
      flattenChildren nps level acc = acc ++ preorderFlattenList nps level) := by
  intro n
  induction n using Nat.strong_induction_on with
  | _ n ih =>
    constructor
    · intro np hnp level
      cases np with
      | mk id po cls label src children =>
        rw [flattenNavPoint, preorderFlatten]
        have hsz : sizeOf children < sizeOf (NavPoint.mk id po cls label src children) := by simp
        rw [(ih (sizeOf children) (Nat.lt_of_lt_of_le hsz hnp)).2 children
            (Nat.le_refl _) (level + 1)]
        rfl
    · intro nps hnps level acc
      cases nps with
      | nil =>
        rw [flattenChildren, preorderFlattenList]
        simp
      | cons c rest =>
        rw [flattenChildren, preorderFlattenList]
        have hszc : sizeOf c < sizeOf (c :: rest) := by simp <;> omega
        have hszr : sizeOf rest < sizeOf (c :: rest) := by simp <;> omega <;> omega
        rw [(ih (sizeOf rest) (Nat.lt_of_lt_of_le hszr hnps)).2 rest
            (Nat.le_refl _) level (acc ++ flattenNavPoint c level)]
        rw [(ih (sizeOf c) (Nat.lt_of_lt_of_le hszc hnps)).1 c (Nat.le_refl _) level]
        rw [List.append_assoc]

theorem getTOCAux_eq : ∀ (nps : List NavPoint) (acc : List TOCEntry),
    getTOCAux nps acc = acc ++ preorderFlattenList nps 1 := by
  intro nps
  induction nps with
  | nil =>
    intro acc
    rw [getTOCAux, preorderFlattenList]
    simp
  | cons np rest ih =>
    intro acc
    rw [getTOCAux, preorderFlattenList, ih,
      (flatten_eq_aux (sizeOf np)).1 np (Nat.le_refl _) 1, List.append_assoc]

theorem preorder_title_trimmed : ∀ n : Nat,
    (∀ np : NavPoint, sizeOf np ≤ n → ∀ (level : Nat) (e : TOCEntry),
      e ∈ preorderFlatten np level → trimSpace e.title = e.title) ∧
    (∀ nps : List NavPoint, sizeOf nps ≤ n → ∀ (level : Nat) (e : TOCEntry),
      e ∈ preorderFlattenList nps level → trimSpace e.title = e.title) := by
  intro n
  induction n using Nat.strong_induction_on with
  | _ n ih =>
    constructor
    · intro np hnp level e he
      cases np with
      | mk id po cls label src children =>
        rw [preorderFlatten] at he
        have hsz : sizeOf children < sizeOf (NavPoint.mk id po cls label src children) := by simp
        rcases List.mem_cons.mp he with rfl | h2
        · exact trimSpace_idem label
        · exact (ih (sizeOf children) (Nat.lt_of_lt_of_le hsz hnp)).2 children
            (Nat.le_refl _) (level + 1) e h2
    · intro nps hnps level e he
      cases nps with
      | nil => rw [preorderFlattenList] at he; simp at he
      | cons c rest =>
        rw [preorderFlattenList] at he
        have hszc : sizeOf c < sizeOf (c :: rest) := by simp <;> omega
        have hszr : sizeOf rest < sizeOf (c :: rest) := by simp <;> omega
        rcases List.mem_append.mp he with h2 | h2
        · exact (ih (sizeOf c) (Nat.lt_of_lt_of_le hszc hnps)).1 c
            (Nat.le_refl _) level e h2
        · exact (ih (sizeOf rest) (Nat.lt_of_lt_of_le hszr hnps)).2 rest
            (Nat.le_refl _) level e h2

/-- Claim C5: `GetTOC` returns exactly the depth-first pre-order flattening
of the navigation tree — every node immediately followed by its whole
flattened subtree, which precedes the node's next sibling — with root
entries at level 1, children at the parent's level plus 1, and every title
whitespace-trimmed. -/
theorem c5_getTOC_preorder (ncx : NCXDoc) :
    getTOC ncx = preorderFlattenList ncx.navPoints 1 ∧
    ∀ e ∈ getTOC ncx, trimSpace e.title = e.title := by
  have h1 : getTOC ncx = preorderFlattenList ncx.navPoints 1 := by
    rw [getTOC, getTOCAux_eq]
    simp
  refine ⟨h1, ?_⟩
  intro e he
  rw [h1] at he
  exact (preorder_title_trimmed (sizeOf ncx.navPoints)).2 ncx.navPoints
    (Nat.le_refl _) 1 e he

/-- The nested child point of the C5 witness document. -/
def navW2 : NavPoint := NavPoint.mk ("i2".data) 2 [] ("B".data) ("b.html".data) []

/-- The root point of the C5 witness document (its label carries spaces to
exercise trimming). -/
def navW1 : NavPoint := NavPoint.mk ("i1".data) 1 [] (" A ".data) ("a.html".data) [navW2]

/-- A small concrete navigation document for the C5 witness: one root point
with an untrimmed label and one nested child. -/
def ncxW : NCXDoc := { docTitle := ("T".data), navPoints := [navW1] }

/-- The root entry that `getTOC ncxW` emits (trimmed title). -/
def tocW : TOCEntry := { title := ("A".data), level := 1, href := ("a.html".data), order := 1 }

/-- Witness for C5 at `ncxW`: the flattening equation instantiated, and the
trimmed-title clause applied to the root entry of `getTOC ncxW`. -/
theorem c5_witness :
    getTOC ncxW = preorderFlattenList ncxW.navPoints 1 ∧
    trimSpace tocW.title = tocW.title := by
  refine ⟨(c5_getTOC_preorder ncxW).1, ?_⟩
  exact (c5_getTOC_preorder ncxW).2 tocW (by decide)

/-! ## Claim C3: the text-segmentation fallback and blank input -/

theorem filterLongParts_mem :
    ∀ (ps : List (List Char)) (p : List Char), p ∈ filterLongParts ps →
      ∃ q, p = trimSpace q ∧ 500 < goLen p := by
  intro ps
  induction ps with
  | nil => intro p h; simp [filterLongParts] at h
  | cons q qs ih =>
    intro p h
    rw [filterLongParts] at h
    by_cases hq : 500 < goLen (trimSpace q)
    · rw [if_pos hq] at h
      rcases List.mem_cons.mp h with rfl | h2
      · exact ⟨q, rfl, hq⟩
      · exact ih p h2
    · rw [if_neg hq] at h
      exact ih p h

theorem buildPartsAux_mem (content : List Char) :
    ∀ (ms : List Nat) (lastEnd : Nat) (p : List Char),
      p ∈ buildPartsAux content lastEnd ms →
      ∃ q, p = trimSpace q ∧ 100 < goLen p := by
  intro ms
  induction ms with
  | nil =>
    intro lastEnd p h
    rw [buildPartsAux] at h
    by_cases h1 : lastEnd < content.length
    · rw [if_pos h1] at h
      by_cases h2 : 100 < goLen (trimSpace (content.drop lastEnd))
      · rw [if_pos h2] at h
        rcases List.mem_singleton.mp h with rfl
        exact ⟨content.drop lastEnd, rfl, h2⟩
      · rw [if_neg h2] at h
        simp at h
    · rw [if_neg h1] at h
      simp at h
  | cons m ms ih =>
    intro lastEnd p h
    rw [buildPartsAux] at h
    by_cases h1 : lastEnd < m
    · rw [if_pos h1] at h
      by_cases h2 : 100 < goLen (trimSpace ((content.drop lastEnd).take (m - lastEnd))) ∧
          0 < lastEnd
      · rw [if_pos h2] at h
        rcases List.mem_cons.mp h with rfl | h3
        · exact ⟨(content.drop lastEnd).take (m - lastEnd), rfl, h2.1⟩
        · exact ih m p h3
      · rw [if_neg h2] at h
        exact ih m p h
    · rw [if_neg h1] at h
      exact ih m p h

theorem tryPatterns_cases (content : List Char) :
    ∀ pats : List (List Char → Option Nat),
      tryPatterns content pats = [content] ∨
        (3 ≤ (tryPatterns content pats).length ∧
          ∀ p ∈ tryPatterns content pats,
            ∃ q, p = trimSpace q ∧ 100 < goLen p) := by
  intro pats
  induction pats with
  | nil => left; rfl
  | cons m ms ih =>
    rw [tryPatterns]
    by_cases h1 : 3 ≤ (reFindAllStarts m content).length
    · rw [if_pos h1]
      by_cases h2 : 3 ≤ (buildPartsAux content 0 (reFindAllStarts m content)).length
      · rw [if_pos h2]
        right
        exact ⟨h2, fun p hp => buildPartsAux_mem content _ 0 p hp⟩
      · rw [if_neg h2]
        exact ih
    · rw [if_neg h1]
      exact ih

theorem splitByChapterPatterns_cases (content : List Char) :
    splitByChapterPatterns content = [content] ∨
      (3 ≤ (splitByChapterPatterns content).length ∧
        ∀ p ∈ splitByChapterPatterns content,
          ∃ q, p = trimSpace q ∧ 100 < goLen p) :=
  tryPatterns_cases content patternMatchers

theorem splitByStarSeparator_cases (content : List Char) :
    splitByStarSeparator content = [content] ∨
      (3 ≤ (splitByStarSeparator content).length ∧
        ∀ p ∈ splitByStarSeparator content,
          ∃ q, p = trimSpace q ∧ 500 < goLen p) := by
  by_cases h : 3 ≤ (filterLongParts (reSplitStar content)).length
  · right
    have he : splitByStarSeparator content = filterLongParts (reSplitStar content) := by
      simp only [splitByStarSeparator]
      rw [if_pos h]
    rw [he]
    exact ⟨h, fun p hp => filterLongParts_mem _ p hp⟩
  · left
    simp only [splitByStarSeparator]
    rw [if_neg h]

/-- Claim C3, counterexample: on the empty input every splitting strategy
falls back to the whole document as a single part, but that part trims to
nothing and is skipped by the emission loop, so `splitIntoChapters` returns
no chapter at all. -/
theorem c3_counterexample : splitIntoChapters [] = [] := by decide

/-- Claim C3, amended: for every input whose trimmed content is non-empty,
`splitIntoChapters` returns at least one chapter (the final fallback returns
the whole document as a single chapter when every splitting strategy
fails); an all-whitespace input yields no chapters. -/
theorem c3_amended (content : List Char) (hne : trimSpace content ≠ []) :
    splitIntoChapters content ≠ [] := by
  obtain ⟨c, hc, hcs⟩ : ∃ c ∈ content, goIsSpace c = false := by
    by_contra h
    push_neg at h
    exact hne ((trimSpace_eq_nil_iff content).mpr
      (fun c hc => by
        have := h c hc
        revert this
        cases goIsSpace c <;> simp))
  have hcff : c ≠ '\x0c' := by
    intro h
    rw [h] at hcs
    simp [goIsSpace] at hcs
  rw [splitIntoChapters]
  by_cases h0 : (goSplit '\x0c' content).length ≤ 1
  · rw [if_pos h0]
    rcases splitByStarSeparator_cases content with hstar | ⟨hlen, hmem⟩
    · rw [hstar]
      have : (1 : Nat) ≤ 1 := Nat.le_refl 1
      rw [if_pos (by rw [hstar] at *; simp)]
      rcases splitByChapterPatterns_cases content with hpat | ⟨hlen2, hmem2⟩
      · rw [hpat]
        exact chaptersFromParts_ne_nil [content] 0 ⟨content, List.mem_singleton.mpr rfl, hne⟩
      · obtain ⟨p, hp⟩ := List.exists_mem_of_ne_nil (splitByChapterPatterns content)
          (List.ne_nil_of_length_pos (by omega))
        obtain ⟨q, hq, hlenp⟩ := hmem2 p hp
        apply chaptersFromParts_ne_nil _ 0
        refine ⟨p, hp, ?_⟩
        rw [hq, trimSpace_idem]
        have h100 : 100 < goLen (trimSpace q) := by rw [← hq]; exact hlenp
        exact ne_nil_of_goLen_pos h100
    · have hgt : ¬((splitByStarSeparator content).length ≤ 1) := by omega
      rw [if_neg hgt]
      obtain ⟨p, hp⟩ := List.exists_mem_of_ne_nil (splitByStarSeparator content)
        (List.ne_nil_of_length_pos (by omega))
      obtain ⟨q, hq, hlenp⟩ := hmem p hp
      apply chaptersFromParts_ne_nil _ 0
      refine ⟨p, hp, ?_⟩
      rw [hq, trimSpace_idem]
      have h500 : 500 < goLen (trimSpace q) := by rw [← hq]; exact hlenp
      exact ne_nil_of_goLen_pos h500
  · rw [if_neg h0]
    obtain ⟨p, hp, hcp⟩ := goSplit_mem_piece hc hcff
    rw [if_neg (by
      intro hle
      exact h0 hle)]
    exact chaptersFromParts_ne_nil _ 0 ⟨p, hp, trimSpace_ne_nil_of_mem hcp hcs⟩

/-- Witness for C3 at a concrete non-blank input. -/
theorem c3_witness : splitIntoChapters ("Hello".data) ≠ [] :=
  c3_amended ("Hello".data) (by decide)

/-! ## Claim C7: the markup-to-text projector on tag-free input -/

theorem toLower_eq_lt {c : Char} (h : c.toLower = ('<' : Char)) : c = '<' := by
  unfold Char.toLower at h
  simp only [ge_iff_le] at h
  split at h
  · exfalso
    rename_i hc
    obtain ⟨h1, h2⟩ := hc
    generalize hg : c.toNat = n at h h1 h2
    interval_cases n <;> exact absurd h (by decide)
  · exact h

theorem removeTag_id {html : List Char} (h : ('<' : Char) ∉ html)
    (tag : List Char) : removeTag html tag = html := by
  have hstep : removeTagStep html tag = none := by
    rw [removeTagStep]
    cases hs : goIndex (html.map Char.toLower) (('<' : Char) :: tag) with
    | none => rfl
    | some i =>
      exfalso
      have hm := goIndex_mem _ _ _ hs ('<' : Char) (List.mem_cons_self ..)
      rw [List.mem_map] at hm
      obtain ⟨c, hc, hlc⟩ := hm
      have hceq : c = '<' := toLower_eq_lt hlc
      subst hceq
      exact h hc
  rw [removeTag]
  simp only [removeTagAux_succ, hstep]

theorem goReplaceAllAux_id (t rep : List Char) :
    ∀ (fuel : Nat) (s : List Char), ('<' : Char) ∉ s →
      goReplaceAllAux (('<' : Char) :: t) rep fuel s = s := by
  intro fuel
  induction fuel with
  | zero => intro s _; rfl
  | succ f ih =>
    intro s h
    cases s with
    | nil => rfl
    | cons c cs =>
      rw [goReplaceAllAux]
      have hpre : ¬((('<' : Char) :: t) ≠ [] ∧
          (('<' : Char) :: t).isPrefixOf (c :: cs)) := by
        rintro ⟨-, hp⟩
        exact h ((List.isPrefixOf_iff_prefix.mp hp).subset (List.mem_cons_self ..))
      rw [if_neg hpre, ih cs (fun hm => h (List.mem_cons_of_mem c hm))]

theorem goReplaceAll_id {s : List Char} (t rep : List Char)
    (h : ('<' : Char) ∉ s) : goReplaceAll s (('<' : Char) :: t) rep = s :=
  goReplaceAllAux_id t rep s.length s h

theorem blockFold_id :
    ∀ (tags : List (List Char)) (s : List Char), ('<' : Char) ∉ s →
      tags.foldl
        (fun h tag =>
          goReplaceAll (goReplaceAll h (('<' : Char) :: tag)
            (('\n' : Char) :: ('<' : Char) :: tag)) (closeTagOf tag) [('\n' : Char)])
        s = s := by
  intro tags
  induction tags with
  | nil => intro s _; rfl
  | cons tag rest ih =>
    intro s h
    rw [List.foldl_cons]
    have h1 : goReplaceAll s (('<' : Char) :: tag)
        (('\n' : Char) :: ('<' : Char) :: tag) = s := goReplaceAll_id _ _ h
    rw [h1]
    have h2 : goReplaceAll s (closeTagOf tag) [('\n' : Char)] = s := by
      rw [closeTagOf]
      exact goReplaceAll_id _ _ h
    rw [h2]
    exact ih s h

theorem stripTags_id : ∀ (s : List Char), ('<' : Char) ∉ s → ('>' : Char) ∉ s →
    stripTags s false = s := by
  intro s
  induction s with
  | nil => intro _ _; rfl
  | cons c cs ih =>
    intro h1 h2
    have hc1 : ¬(c = '<') := fun he => h1 (he ▸ List.mem_cons_self ..)
    have hc2 : ¬(c = '>') := fun he => h2 (he ▸ List.mem_cons_self ..)
    rw [stripTags, if_neg hc1, if_neg hc2, if_neg (by simp)]
    rw [ih (fun hm => h1 (List.mem_cons_of_mem c hm))
      (fun hm => h2 (List.mem_cons_of_mem c hm))]

theorem htmlToText_eq_cleanup {s : List Char}
    (h1 : ('<' : Char) ∉ s) (h2 : ('>' : Char) ∉ s) :
    htmlToText s = cleanupLines s := by
  rw [htmlToText]
  rw [removeTag_id h1, removeTag_id h1, blockFold_id _ _ h1, stripTags_id s h1 h2]

theorem goJoin_cons_cons (sep a b : List Char) (rest : List (List Char)) :
    goJoin sep (a :: b :: rest) = a ++ sep ++ goJoin sep (b :: rest) := rfl

theorem goJoin_singleton (sep a : List Char) : goJoin sep [a] = a := rfl

theorem goJoin_mem {c : Char} (sep : List Char) :
    ∀ (L : List (List Char)), c ∈ goJoin sep L → c ∈ sep ∨ ∃ p ∈ L, c ∈ p := by
  intro L
  induction L with
  | nil => intro h; simp [goJoin] at h
  | cons a rest ih =>
    intro h
    cases rest with
    | nil =>
      right
      exact ⟨a, List.mem_cons_self .., by simpa [goJoin_singleton] using h⟩
    | cons b rest2 =>
      rw [goJoin_cons_cons] at h
      rcases List.mem_append.mp h with hl | hl
      · rcases List.mem_append.mp hl with h3 | h3
        · right
          exact ⟨a, List.mem_cons_self .., h3⟩
        · left
          exact h3
      · rcases ih hl with h3 | ⟨p, hp, hcp⟩
        · left
          exact h3
        · right
          exact ⟨p, List.mem_cons_of_mem a hp, hcp⟩

theorem mem_cleanupLines {c : Char} {s : List Char} (h : c ∈ cleanupLines s) :
    c ∈ s ∨ c = '\n' := by
  rw [cleanupLines] at h
  rcases goJoin_mem _ _ h with h1 | ⟨p, hp, hcp⟩
  · right
    simpa using h1
  · left
    have hp2 := (List.mem_filter.mp hp).1
    rw [List.mem_map] at hp2
    obtain ⟨q, hq, rfl⟩ := hp2
    exact mem_of_mem_goSplit hq (mem_trimSpace hcp)

theorem cleanup_join_lemma :
    ∀ L : List (List Char),
      (∀ p ∈ L, ('\n' : Char) ∉ p ∧ p ≠ [] ∧ trimSpace p = p) →
      ((goSplit '\n' (goJoin ("\n\n".data) L)).map trimSpace).filter
        (fun l => l ≠ []) = L := by
  intro L
  induction L with
  | nil => intro _; rfl
  | cons a rest ih =>
    intro hmem
    obtain ⟨hn, hne, htr⟩ := hmem a (List.mem_cons_self ..)
    cases rest with
    | nil =>
      rw [goJoin_singleton, goSplit_of_not_mem hn]
      rw [List.map_cons, List.map_nil, htr, List.filter_cons]
      rw [if_pos (by simpa using hne)]
      rfl
    | cons b rest2 =>
      have hjoin : goJoin ("\n\n".data) (a :: b :: rest2) =
          a ++ ('\n' : Char) :: ('\n' : Char) :: goJoin ("\n\n".data) (b :: rest2) := by
        rw [goJoin_cons_cons, List.append_assoc]
        rfl
      rw [hjoin, goSplit_append_cons _ hn]
      have hsplit2 : goSplit '\n'
          (('\n' : Char) :: goJoin ("\n\n".data) (b :: rest2)) =
          [] :: goSplit '\n' (goJoin ("\n\n".data) (b :: rest2)) := by
        rw [goSplit]
        rw [if_pos rfl]
      rw [hsplit2, List.map_cons, List.map_cons, List.filter_cons, htr]
      rw [if_pos (by simpa using hne)]
      rw [List.filter_cons]
      rw [if_neg (by simp [trimSpace])]
      rw [ih (fun p hp => hmem p (List.mem_cons_of_mem a hp))]

theorem cleanupLines_idem (s : List Char) :
    cleanupLines (cleanupLines s) = cleanupLines s := by
  have hmem : ∀ p ∈ ((goSplit '\n' s).map trimSpace).filter (fun l => l ≠ []),
      ('\n' : Char) ∉ p ∧ p ≠ [] ∧ trimSpace p = p := by
    intro p hp
    have hp1 := (List.mem_filter.mp hp).1
    have hp2 := (List.mem_filter.mp hp).2
    rw [List.mem_map] at hp1
    obtain ⟨q, hq, rfl⟩ := hp1
    refine ⟨?_, by simpa using hp2, trimSpace_idem q⟩
    intro hmem2
    exact mem_of_mem_goSplit_piece_not_sep hq (mem_trimSpace hmem2)
  conv_lhs => rw [cleanupLines, cleanupLines]
  rw [cleanup_join_lemma _ hmem]
  rw [cleanupLines]

/-- Claim C7: on tag-free input (no `<` and no `>` characters) the
markup-to-text projector only performs whitespace normalisation — it equals
the final cleanup pass — and it is idempotent: applying it to its own
output returns that output unchanged. -/
theorem c7_projector_idem (s : List Char)
    (h1 : ('<' : Char) ∉ s) (h2 : ('>' : Char) ∉ s) :
    htmlToText s = cleanupLines s ∧
      htmlToText (htmlToText s) = htmlToText s := by
  have hfirst := htmlToText_eq_cleanup h1 h2
  refine ⟨hfirst, ?_⟩
  rw [hfirst]
  have hcl1 : ('<' : Char) ∉ cleanupLines s := by
    intro hm
    rcases mem_cleanupLines hm with h | h
    · exact h1 h
    · exact absurd h (by decide)
  have hcl2 : ('>' : Char) ∉ cleanupLines s := by
    intro hm
    rcases mem_cleanupLines hm with h | h
    · exact h2 h
    · exact absurd h (by decide)
  rw [htmlToText_eq_cleanup hcl1 hcl2]
  exact cleanupLines_idem s

/-- Witness for C7 at a tag-free concrete input. -/
theorem c7_witness :
    htmlToText ("hello  world".data) = cleanupLines ("hello  world".data) ∧
      htmlToText (htmlToText ("hello  world".data)) =
        htmlToText ("hello  world".data) :=
  c7_projector_idem ("hello  world".data) (by decide) (by decide)
